import Mathlib

/-!
# git-semver

A shallow embedding of `main.go`: the configuration parser (`parseConfig`), the tag
selection (`getVersion`) and the command driver (`cmdGet`, `nextVersion`), together with
the parts of the Go standard library they call.

Go strings are byte sequences, so they are modelled as lists of byte values. External
collaborators (the output of `git tag`, the outcome of `git tag -a`, the command-line
flags) are explicit arguments.
-/

namespace GitSemver

/-! ## Go strings -/

/-- A Go string: its bytes, each a value below 256. -/
abbrev GoString := List Nat

/-- Go's `utf8.AppendRune`: the UTF-8 encoding of a code point; a surrogate or a value
above U+10FFFF is encoded as U+FFFD. -/
def encodeRune (r : Nat) : GoString :=
  if r < 0x80 then [r]
  else if r < 0x800 then [0xC0 + r / 64, 0x80 + r % 64]
  else if 0x10FFFF < r ∨ (0xD800 ≤ r ∧ r ≤ 0xDFFF) then [0xEF, 0xBF, 0xBD]
  else if r < 0x10000 then [0xE0 + r / 4096, 0x80 + (r / 64) % 64, 0x80 + r % 64]
  else [0xF0 + r / 262144, 0x80 + (r / 4096) % 64, 0x80 + (r / 64) % 64, 0x80 + r % 64]

/-- The Go string written by a string literal of the source. -/
def utf8 (s : String) : GoString := (s.data.map (fun c => encodeRune c.toNat)).flatten

/-- Go's `strings.HasPrefix`. -/
def HasPrefix (s p : GoString) : Bool := p.isPrefixOf s

/-- The ASCII white space of `strings.TrimSpace`: tab, line feed, vertical tab, form feed,
carriage return and space. -/
def asciiSpace (a : Nat) : Bool :=
  a == 0x09 || a == 0x0A || a == 0x0B || a == 0x0C || a == 0x0D || a == 0x20

/-- The two-byte encodings of white space: U+0085 and U+00A0. -/
def space2 (a b : Nat) : Bool := a == 0xC2 && (b == 0x85 || b == 0xA0)

/-- The three-byte encodings of white space (`unicode.IsSpace`): U+1680, U+2000 to U+200A,
U+2028, U+2029, U+202F, U+205F and U+3000. -/
def space3 (a b c : Nat) : Bool :=
  (a == 0xE1 && b == 0x9A && c == 0x80) ||
  (a == 0xE2 && b == 0x80 &&
    ((decide (0x80 ≤ c) && decide (c ≤ 0x8A)) || c == 0xA8 || c == 0xA9 || c == 0xAF)) ||
  (a == 0xE2 && b == 0x81 && c == 0x9F) ||
  (a == 0xE3 && b == 0x80 && c == 0x80)

/-- The first occurrence of `sep` in a string: the text before it and the text after it. -/
def cutAt (sep : GoString) : GoString → Option (GoString × GoString)
  | [] => if sep = [] then some ([], []) else none
  | a :: r =>
    if sep.isPrefixOf (a :: r) then some ([], (a :: r).drop sep.length)
    else (cutAt sep r).map (fun p => (a :: p.1, p.2))

/-- What a `bufio.Scanner` delivers over a whole input: the tokens returned by the
successive calls of `Scan`/`Text`, and the value of `Err()` once `Scan` has returned
false. The reader itself is taken not to fail. -/
structure Scanned where
  tokens : List GoString
  err : Option GoString
deriving DecidableEq, Repr

/-- Go's `bufio.MaxScanTokenSize`. -/
def MaxScanTokenSize : Nat := 64 * 1024

/-- The message of Go's `bufio.ErrTooLong`. -/
def ErrTooLong : GoString := utf8 "bufio.Scanner: token too long"

/-- The helper `dropCR` of `bufio`: drops a terminal carriage return. -/
def dropCR (data : GoString) : GoString :=
  if data.getLast? = some 0x0D then data.dropLast else data

/-- The segments of the input between line feeds; the last segment is what follows the
last line feed (the whole input when there is none). -/
def segments : GoString → List GoString
  | [] => [[]]
  | b :: rest =>
    if b = 0x0A then [] :: segments rest
    else
      match segments rest with
      | [] => [[b]]
      | l :: ls => (b :: l) :: ls

/-- The run of `Scan` over the segments: a segment of `MaxScanTokenSize` bytes or more
fills the buffer before its line feed is seen, and the scanner stops with `ErrTooLong`;
an empty last segment is the end of the input, not a token. -/
def scanSegments : List GoString → Scanned
  | [] => ⟨[], none⟩
  | [last] =>
    if last = [] then ⟨[], none⟩
    else if MaxScanTokenSize ≤ last.length then ⟨[], some ErrTooLong⟩
    else ⟨[dropCR last], none⟩
  | l :: l2 :: rest =>
    if MaxScanTokenSize ≤ l.length then ⟨[], some ErrTooLong⟩
    else ⟨dropCR l :: (scanSegments (l2 :: rest)).tokens, (scanSegments (l2 :: rest)).err⟩

/-- A `bufio.Scanner` (split function `bufio.ScanLines`) read to the end over the input
`data`. -/
def ScanLines (data : GoString) : Scanned := scanSegments (segments data)

/-! ## `parseConfig` -/

/-- The type `config` of `main.go`. -/
structure config where
  versionPrefix : GoString
  sign : Bool
deriving DecidableEq, Repr

/-- Modelled from the spec: the type `semver.Version` of the imported library, not under
src/ (section 3, SemanticVersion): major, minor and patch are non-negative integers, the
pre-release and the build metadata are sequences of identifiers, the empty sequence
meaning that there is none. -/
structure Version where
  major : Nat
  minor : Nat
  patch : Nat
  pre : List GoString
  metadata : List GoString
deriving DecidableEq, Repr

/-- The pieces of a string between occurrences of the byte `sep`. -/
def fields (sep : Nat) : GoString → List GoString
  | [] => [[]]
  | b :: rest =>
    if b = sep then [] :: fields sep rest
    else
      match fields sep rest with
      | [] => [[b]]
      | l :: ls => (b :: l) :: ls

/-- An ASCII digit. -/
def isDigit (c : Nat) : Bool := decide (0x30 ≤ c) && decide (c ≤ 0x39)

/-- A byte of the identifier alphabet `[0-9A-Za-z-]`. -/
def isIdentByte (c : Nat) : Bool :=
  isDigit c || (decide (0x41 ≤ c) && decide (c ≤ 0x5A)) ||
    (decide (0x61 ≤ c) && decide (c ≤ 0x7A)) || c == 0x2D

/-- A numeric identifier: one or more digits. -/
def isNumeric (s : GoString) : Bool := !s.isEmpty && s.all isDigit

/-- The number written by a string of digits. -/
def decimal (s : GoString) : Nat := s.foldl (fun n c => 10 * n + (c - 0x30)) 0

/-- No leading zero, unless the text is exactly `0`. -/
def noLeadingZero (s : GoString) : Bool := s == [0x30] || s.head? != some 0x30

/-- Modelled from the spec: MAJOR, MINOR and PATCH "must be non-negative integers without
leading zeros (except the literal 0)" (section 4.1, parse). -/
def parseNumber (s : GoString) : Option Nat :=
  if isNumeric s && noLeadingZero s then some (decimal s) else none

/-- Modelled from the spec: a pre-release identifier matches `[0-9A-Za-z-]+`, and "numeric
identifiers must not have leading zeros" (section 4.1, parse). -/
def validPreIdent (s : GoString) : Bool :=
  !s.isEmpty && s.all isIdentByte && (!isNumeric s || noLeadingZero s)

/-- Modelled from the spec: a build identifier matches `[0-9A-Za-z-]+`, leading zeros
permitted (section 4.1, parse). -/
def validBuildIdent (s : GoString) : Bool := !s.isEmpty && s.all isIdentByte

/-- The dot-separated identifiers of `text`, when each of them satisfies `ok`. -/
def identifiers (ok : GoString → Bool) (text : GoString) : Option (List GoString) :=
  if (fields 0x2E text).all ok then some (fields 0x2E text) else none

/-- Modelled from the spec: `parse(text)` of the version model, the library's parser not
being under src/ (section 4.1): the form `MAJOR.MINOR.PATCH[-PRERELEASE][+BUILD]`, and a
`ParseError` (`none`) "on any deviation". -/
def parse (text : GoString) : Option Version :=
  let body := (cutAt [0x2B] text).elim text (fun p => p.1)
  let build := (cutAt [0x2B] text).map (fun p => p.2)
  let core := (cutAt [0x2D] body).elim body (fun p => p.1)
  let pre := (cutAt [0x2D] body).map (fun p => p.2)
  match fields 0x2E core with
  | [a, b, c] =>
    match parseNumber a, parseNumber b, parseNumber c,
        pre.elim (some []) (identifiers validPreIdent),
        build.elim (some []) (identifiers validBuildIdent) with
    | some major, some minor, some patch, some preIds, some buildIds =>
      some ⟨major, minor, patch, preIds, buildIds⟩
    | _, _, _, _, _ => none
  | _ => none

/-- Modelled from the spec: `semver.NewVersion`, the library function that `getVersion`
calls, not under src/. `getVersion` hands it the tag with the prefix still on it, and
section 8 has the tags `v1.0.0`, `v1.2.0`, `v2.0.0-beta`, `v2.0.0` read as versions under
the prefix `v`; so the function is taken to read one leading `v`, if present, before the
grammar of `parse`. -/
def NewVersion (v : GoString) : Option Version :=
  match v with
  | 0x76 :: rest => parse rest
  | _ => parse v

/-- Modelled from the spec: `semver.New` with empty pre-release and metadata, the "explicit
construction" of section 3; the library is not under src/. -/
def New (major minor patch : Nat) : Version := ⟨major, minor, patch, [], []⟩

/-- The digit loop of `formatNat`, most significant digit first. -/
def formatAux : Nat → Nat → GoString → GoString
  | 0, _, acc => acc
  | fuel + 1, n, acc =>
    if n < 10 then (0x30 + n) :: acc else formatAux fuel (n / 10) ((0x30 + n % 10) :: acc)

/-- The decimal text of a number. A number `n` has at most `n + 1` digits, the fuel. -/
def formatNat (n : Nat) : GoString := formatAux (n + 1) n []

/-- Modelled from the spec: `render()` (the method `String` of the library, not under
src/), the "canonical `MAJOR.MINOR.PATCH[-PRERELEASE][+BUILD]` form" (section 4.1). -/
def Version.String (v : Version) : GoString :=
  formatNat v.major ++ [0x2E] ++ formatNat v.minor ++ [0x2E] ++ formatNat v.patch ++
    (if v.pre = [] then [] else 0x2D :: [0x2E].intercalate v.pre) ++
    (if v.metadata = [] then [] else 0x2B :: [0x2E].intercalate v.metadata)

/-- Lexicographic comparison of two sequences under `cmp`; when one is a proper initial
part of the other, the shorter one is the lesser. -/
def cmpList {α : Type} (cmp : α → α → Ordering) : List α → List α → Ordering
  | [], [] => .eq
  | [], _ :: _ => .lt
  | _ :: _, [] => .gt
  | a :: as, b :: bs => (cmp a b).then (cmpList cmp as bs)

/-- Modelled from the spec: comparison of two pre-release identifiers: "numeric
identifiers are compared numerically and sort before non-numeric identifiers of the same
position; non-numeric identifiers compare lexically (ASCII)" (section 4.1, compare). -/
def cmpIdent (a b : GoString) : Ordering :=
  match isNumeric a, isNumeric b with
  | true, true => compare (decimal a) (decimal b)
  | true, false => .lt
  | false, true => .gt
  | false, false => cmpList (fun x y : Nat => compare x y) a b

/-- Modelled from the spec: comparison of the pre-release parts: "a version with no
pre-release is greater than one with a pre-release; if both have pre-release sequences,
compare identifier-by-identifier ...; if all shared identifiers are equal, the sequence
with fewer identifiers is lesser" (section 4.1, compare). -/
def comparePrerelease (a b : List GoString) : Ordering :=
  match a, b with
  | [], [] => .eq
  | [], _ :: _ => .gt
  | _ :: _, [] => .lt
  | x :: xs, y :: ys => cmpList cmpIdent (x :: xs) (y :: ys)

/-- Modelled from the spec: `compare(a, b)` (the method `Compare` of the library, not under
src/): "orders first by (major, minor, patch) numerically", then by the pre-release parts;
"build metadata never participates in comparison" (section 4.1). -/
def Version.Compare (a b : Version) : Ordering :=
  (compare a.major b.major).then ((compare a.minor b.minor).then
    ((compare a.patch b.patch).then (comparePrerelease a.pre b.pre)))

/-- Modelled from the spec: the method `GreaterThan` of the library, not under src/: the
comparison of section 4.1 answers "greater". -/
def Version.GreaterThan (v o : Version) : Bool := v.Compare o == .gt

/-- Modelled from the spec: `incPatch` (the library is not under src/): "increments the
respective component, zeroing all lower-order components, and clears pre-release and build
metadata" (section 4.1). -/
def Version.IncPatch (v : Version) : Version := ⟨v.major, v.minor, v.patch + 1, [], []⟩

/-- Modelled from the spec: `incMinor` (the library is not under src/), as `IncPatch`. -/
def Version.IncMinor (v : Version) : Version := ⟨v.major, v.minor + 1, 0, [], []⟩

/-- Modelled from the spec: `incMajor` (the library is not under src/), as `IncPatch`;
"incrementing major when major is 0 still increments it to 1". -/
def Version.IncMajor (v : Version) : Version := ⟨v.major + 1, 0, 0, [], []⟩

/-- Modelled from the spec: `setPrerelease(text)` (the library is not under src/):
"replaces the pre-release component after re-validating the identifier grammar"; `none` is
the `ValidationError`. The empty text is the empty sequence of identifiers. -/
def Version.SetPrerelease (v : Version) (text : GoString) : Option Version :=
  if text = [] then some { v with pre := [] }
  else (identifiers validPreIdent text).map (fun ids => { v with pre := ids })

/-- Modelled from the spec: `setMetadata(text)` (the library is not under src/): "same, for
build metadata". -/
def Version.SetMetadata (v : Version) (text : GoString) : Option Version :=
  if text = [] then some { v with metadata := [] }
  else (identifiers validBuildIdent text).map (fun ids => { v with metadata := ids })

/-! ## `getVersion`, `cmdGet` and `nextVersion` -/

/-- The outcome of the external command `git tag` (`exec.Command("git", "tag")
.CombinedOutput()`): its output and its error, if any. -/
structure GitTag where
  out : GoString
  err : Option GoString
deriving DecidableEq, Repr

/-- The loop of `getVersion` (lines 285 to 297 of `main.go`) over the scanned tag names,
`latest` being the variable of that name. A tag name that does not parse is logged and
skipped (`continue`); the log line is not part of the result. -/
def latestOf (versionPrefix : GoString) : List GoString → Option Version → Option Version
  | [], latest => latest
  | tagName :: rest, latest =>
    if HasPrefix tagName versionPrefix then
      match NewVersion tagName with
      | none => latestOf versionPrefix rest latest
      | some v =>
        match latest with
        | none => latestOf versionPrefix rest (some v)
        | some l =>
          if v.GreaterThan l then latestOf versionPrefix rest (some v)
          else latestOf versionPrefix rest latest
    else latestOf versionPrefix rest latest

/-- The function `getVersion` of `main.go`: the pair it returns, the latest version (`none`
is the nil pointer) and the error. -/
def getVersion (versionPrefix : GoString) (git : GitTag) : Option Version × Option GoString :=
  match git.err with
  | some e => (none, some e)
  | none =>
    (latestOf versionPrefix (ScanLines git.out).tokens none, (ScanLines git.out).err)

/-- What a command has done when it returns: the exit code (0 when the action returns
nil), the lines printed with `fmt.Println`, and the calls of `createTag` made, each with
its tag name and sign flag. The text given to `cli.Exit` is not recorded. -/
structure Outcome where
  exitCode : Nat
  printed : List GoString
  created : List (GoString × Bool)
deriving DecidableEq, Repr

/-- The action of `cmdGet`. -/
def cmdGet (conf : config) (git : GitTag) : Outcome :=
  match getVersion conf.versionPrefix git with
  | (_, some _) => ⟨2, [], []⟩
  | (none, none) => ⟨2, [], []⟩
  | (some v, none) => ⟨0, [conf.versionPrefix ++ v.String], []⟩

/-- The command-line flags read by `nextVersion`: for `pre-release` and `build`, `none`
when `c.IsSet` is false and otherwise the value of `c.String`; `c.Bool("dryrun")`. -/
structure Flags where
  preRelease : Option GoString
  build : Option GoString
  dryrun : Bool
deriving DecidableEq, Repr

/-- Lines 121 to 138 of `nextVersion`: the version before the flags are applied. -/
def increment (inc : GoString) (v : Option Version) : Version :=
  match v with
  | none => New 0 1 0
  | some v =>
    if inc = utf8 "patch" then v.IncPatch
    else if inc = utf8 "minor" then v.IncMinor
    else if inc = utf8 "major" then v.IncMajor
    else v

/-- Lines 139 to 150 of `nextVersion`: the pre-release and build flags applied in that
order; `none` when one of them is refused (the action returns `cli.Exit(..., 3)`). -/
def applyFlags (flags : Flags) (newVer : Version) : Option Version :=
  match (match flags.preRelease with
         | some p => newVer.SetPrerelease p
         | none => some newVer) with
  | none => none
  | some nv =>
    match flags.build with
    | some b => nv.SetMetadata b
    | none => some nv

/-- Lines 151 to 158 of `nextVersion`: the tag name is formed, the tag is created unless
`dryrun` is set, and the name is printed. `createTag` is the external command `git tag -a`
(or `-s`): it answers the error, if any, for a tag name and sign flag. -/
def emit (conf : config) (flags : Flags) (createTag : GoString → Bool → Option GoString)
    (newVer : Version) : Outcome :=
  if flags.dryrun then ⟨0, [conf.versionPrefix ++ newVer.String], []⟩
  else
    match createTag (conf.versionPrefix ++ newVer.String) conf.sign with
    | some _ => ⟨3, [], [(conf.versionPrefix ++ newVer.String, conf.sign)]⟩
    | none =>
      ⟨0, [conf.versionPrefix ++ newVer.String],
        [(conf.versionPrefix ++ newVer.String, conf.sign)]⟩

/-- The action `nextVersion(inc)` of `main.go`. -/
def nextVersion (inc : GoString) (conf : config) (flags : Flags) (git : GitTag)
    (createTag : GoString → Bool → Option GoString) : Outcome :=
  match getVersion conf.versionPrefix git with
  | (_, some _) => ⟨2, [], []⟩
  | (v, none) =>
    match applyFlags flags (increment inc v) with
    | none => ⟨3, [], []⟩
    | some newVer => emit conf flags createTag newVer

/-- The outcome `some r` of the loop of `getVersion` started with `latest`: either `r` is
that starting value and no participating tag is greater, or `r` is the version of a
participating tag, every participating tag before it (and the starting value) is strictly
less, and no participating tag after it is greater. -/
def FirstMax (versionPrefix : GoString) (tags : List GoString) (latest : Option Version)
    (r : Version) : Prop :=
  (latest = some r ∧
    ∀ u ∈ tags, HasPrefix u versionPrefix = true →
      ∀ w, NewVersion u = some w → w.Compare r ≠ .gt) ∨
  (∃ before t after, tags = before ++ t :: after ∧
    HasPrefix t versionPrefix = true ∧ NewVersion t = some r ∧
    (∀ l, latest = some l → l.Compare r = .lt) ∧
    (∀ u ∈ before, HasPrefix u versionPrefix = true →
      ∀ w, NewVersion u = some w → w.Compare r = .lt) ∧
    (∀ u ∈ after, HasPrefix u versionPrefix = true →
      ∀ w, NewVersion u = some w → w.Compare r ≠ .gt))

/-! ## Predicates used to state the properties of trimming -/

/-- The string is the UTF-8 encoding of one white-space character (`unicode.IsSpace`). -/
def isSpace (w : GoString) : Bool :=
  match w with
  | [a] => asciiSpace a
  | [a, b] => space2 a b
  | [a, b, c] => space3 a b c
  | _ => false

/-- The string consists only of white space: it is a sequence of encodings of white-space
characters. -/
def onlySpace (s : GoString) : Prop :=
  ∃ ws : List GoString, (∀ w ∈ ws, isSpace w = true) ∧ s = ws.flatten

/-! ## Trimming white space -/

section stripLemmas
variable (p1 : Nat → Bool) (p2 : Nat → Nat → Bool) (p3 : Nat → Nat → Nat → Bool)

end stripLemmas
/-! ### White space -/

theorem onlySpace_nil : onlySpace [] := ⟨[], by simp, rfl⟩

theorem setPrerelease_some (p : GoString) (v w : Version) (h : v.SetPrerelease p = some w) :
    w = { v with pre := w.pre } ∧
      ∀ u : Version, u.SetPrerelease p = some { u with pre := w.pre } := by
  unfold Version.SetPrerelease at h
  by_cases hp : p = []
  · simp only [hp, if_true] at h
    cases h
    exact ⟨rfl, fun u => by simp [Version.SetPrerelease, hp]⟩
  · simp only [hp, if_false] at h
    cases hi : identifiers validPreIdent p with
    | none => simp [hi] at h
    | some ids =>
      simp only [hi, Option.map_some', Option.some.injEq] at h
      subst h
      exact ⟨rfl, fun u => by simp [Version.SetPrerelease, hp, hi]⟩

theorem setMetadata_some (b : GoString) (v w : Version) (h : v.SetMetadata b = some w) :
    w = { v with metadata := w.metadata } ∧
      ∀ u : Version, u.SetMetadata b = some { u with metadata := w.metadata } := by
  unfold Version.SetMetadata at h
  by_cases hp : b = []
  · simp only [hp, if_true] at h
    cases h
    exact ⟨rfl, fun u => by simp [Version.SetMetadata, hp]⟩
  · simp only [hp, if_false] at h
    cases hi : identifiers validBuildIdent b with
    | none => simp [hi] at h
    | some ids =>
      simp only [hi, Option.map_some', Option.some.injEq] at h
      subst h
      exact ⟨rfl, fun u => by simp [Version.SetMetadata, hp, hi]⟩

theorem applyFlags_some (flags : Flags) (v nv : Version) (h : applyFlags flags v = some nv) :
    nv.major = v.major ∧ nv.minor = v.minor ∧ nv.patch = v.patch ∧
    (∀ p, flags.preRelease = some p →
      ∀ u : Version, u.SetPrerelease p = some { u with pre := nv.pre }) ∧
    (flags.preRelease = none → nv.pre = v.pre) ∧
    (∀ b, flags.build = some b →
      ∀ u : Version, u.SetMetadata b = some { u with metadata := nv.metadata }) ∧
    (flags.build = none → nv.metadata = v.metadata) := by
  unfold applyFlags at h
  cases hp : flags.preRelease with
  | none =>
    cases hb : flags.build with
    | none =>
      simp only [hp, hb, Option.some.injEq] at h
      subst h
      simp
    | some b =>
      simp only [hp, hb] at h
      obtain ⟨h1, h2⟩ := setMetadata_some b v nv h
      rw [h1]
      refine ⟨rfl, rfl, rfl, by simp, by simp, ?_, by simp⟩
      intro b2 hb2 u
      cases hb2
      exact h2 u
  | some p =>
    cases hs : v.SetPrerelease p with
    | none => simp [hp, hs] at h
    | some w =>
      obtain ⟨hw1, hw2⟩ := setPrerelease_some p v w hs
      cases hb : flags.build with
      | none =>
        simp only [hp, hs, hb, Option.some.injEq] at h
        subst h
        rw [hw1]
        refine ⟨rfl, rfl, rfl, ?_, by simp, by simp, by simp⟩
        intro p2 hp2 u
        cases hp2
        exact hw2 u
      | some b =>
        simp only [hp, hs, hb] at h
        obtain ⟨h1, h2⟩ := setMetadata_some b w nv h
        rw [h1, hw1]
        refine ⟨rfl, rfl, rfl, ?_, by simp, ?_, by simp⟩
        · intro p2 hp2 u
          cases hp2
          exact hw2 u
        · intro b2 hb2 u
          cases hb2
          exact h2 u

theorem setPrerelease_none_any (p : GoString) (v w : Version)
    (h : v.SetPrerelease p = none) : w.SetPrerelease p = none := by
  unfold Version.SetPrerelease at h ⊢
  split at h
  · cases h
  · rename_i hne
    simp only [hne, if_false]
    cases hi : identifiers validPreIdent p with
    | none => rfl
    | some ids => simp [hi] at h

theorem setMetadata_none_any (b : GoString) (v w : Version)
    (h : v.SetMetadata b = none) : w.SetMetadata b = none := by
  unfold Version.SetMetadata at h ⊢
  split at h
  · cases h
  · rename_i hne
    simp only [hne, if_false]
    cases hi : identifiers validBuildIdent b with
    | none => rfl
    | some ids => simp [hi] at h

theorem string_bootstrap : (Version.mk 0 1 0 [] []).String = utf8 "0.1.0" := by decide

/-- C3. When `getVersion` finds no version and reports no error, `nextVersion` works from
0.1.0 whatever the increment kind `inc`: its outcome is that of applying the requested
pre-release and build flags to 0.1.0 and emitting the result; a version that comes out of
the flags still has major 0, minor 1, patch 0 and carries exactly the requested
pre-release and build; with neither flag set the tag name is the prefix followed by
`0.1.0`. -/
theorem nextVersion_bootstrap (inc : GoString) (conf : config) (flags : Flags) (git : GitTag)
    (createTag : GoString → Bool → Option GoString)
    (hnone : getVersion conf.versionPrefix git = (none, none)) :
    (nextVersion inc conf flags git createTag =
      match applyFlags flags ⟨0, 1, 0, [], []⟩ with
      | none => ⟨3, [], []⟩
      | some newVer => emit conf flags createTag newVer) ∧
    (∀ newVer, applyFlags flags ⟨0, 1, 0, [], []⟩ = some newVer →
      newVer.major = 0 ∧ newVer.minor = 1 ∧ newVer.patch = 0 ∧
      (∀ p, flags.preRelease = some p →
        (Version.mk 0 1 0 [] []).SetPrerelease p = some ⟨0, 1, 0, newVer.pre, []⟩) ∧
      (flags.preRelease = none → newVer.pre = []) ∧
      (∀ b, flags.build = some b →
        (Version.mk 0 1 0 [] []).SetMetadata b = some ⟨0, 1, 0, [], newVer.metadata⟩) ∧
      (flags.build = none → newVer.metadata = [])) ∧
    (flags.preRelease = none → flags.build = none →
      nextVersion inc conf flags git createTag =
        if flags.dryrun then ⟨0, [conf.versionPrefix ++ utf8 "0.1.0"], []⟩
        else
          match createTag (conf.versionPrefix ++ utf8 "0.1.0") conf.sign with
          | some _ => ⟨3, [], [(conf.versionPrefix ++ utf8 "0.1.0", conf.sign)]⟩
          | none =>
            ⟨0, [conf.versionPrefix ++ utf8 "0.1.0"],
              [(conf.versionPrefix ++ utf8 "0.1.0", conf.sign)]⟩) := by
  have hnv : nextVersion inc conf flags git createTag =
      match applyFlags flags ⟨0, 1, 0, [], []⟩ with
      | none => ⟨3, [], []⟩
      | some newVer => emit conf flags createTag newVer := by
    simp [nextVersion, hnone, increment, New]
  refine ⟨hnv, ?_, ?_⟩
  · intro newVer h
    obtain ⟨h1, h2, h3, h4, h5, h6, h7⟩ := applyFlags_some flags _ newVer h
    exact ⟨h1, h2, h3, fun p hp => h4 p hp _, h5, fun b hb => h6 b hb _, h7⟩
  · intro hp hb
    rw [hnv]
    simp [applyFlags, hp, hb, emit, string_bootstrap]

theorem nextVersion_bootstrap_witness :
    getVersion (utf8 "v") ⟨utf8 "", none⟩ = (none, none) ∧
    nextVersion (utf8 "major") ⟨utf8 "v", false⟩ ⟨none, none, false⟩ ⟨utf8 "", none⟩
        (fun _ _ => none) = ⟨0, [utf8 "v0.1.0"], [(utf8 "v0.1.0", false)]⟩ :=
  ⟨by decide,
    ((nextVersion_bootstrap (utf8 "major") ⟨utf8 "v", false⟩ ⟨none, none, false⟩ ⟨utf8 "", none⟩
      (fun _ _ => none) (by decide)).2.2 rfl rfl).trans (by decide)⟩

/-- C5. Whenever `getVersion` reports no error: if the requested pre-release text, or the
requested build text, is one that validation refuses, `nextVersion` ends with exit code 3,
has called `createTag` not at all and has printed nothing. Whenever the dry-run flag is
set, no call of `createTag` is made. When `getVersion` reports an error the exit code is
2, which is not 3. -/
theorem nextVersion_validation (inc : GoString) (conf : config) (flags : Flags) (git : GitTag)
    (createTag : GoString → Bool → Option GoString) :
    ((getVersion conf.versionPrefix git).2 = none →
      ((∃ p, flags.preRelease = some p ∧ ∃ v : Version, v.SetPrerelease p = none) ∨
        (∃ b, flags.build = some b ∧ ∃ v : Version, v.SetMetadata b = none)) →
      nextVersion inc conf flags git createTag = ⟨3, [], []⟩) ∧
    (flags.dryrun = true → (nextVersion inc conf flags git createTag).created = []) ∧
    ((getVersion conf.versionPrefix git).2 ≠ none →
      nextVersion inc conf flags git createTag = ⟨2, [], []⟩) ∧
    (3 : Nat) ≠ 2 := by
  refine ⟨?_, ?_, ?_, by decide⟩
  · intro hok hbad
    rcases hg : getVersion conf.versionPrefix git with ⟨cur, e⟩
    rw [hg] at hok
    simp only at hok
    subst hok
    have happly : applyFlags flags (increment inc cur) = none := by
      unfold applyFlags
      rcases hbad with ⟨p, hp, v, hv⟩ | ⟨b, hb, v, hv⟩
      · simp [hp, setPrerelease_none_any p v _ hv]
      · cases hp : flags.preRelease with
        | none => simp [hp, hb, setMetadata_none_any b v _ hv]
        | some p =>
          cases hs : (increment inc cur).SetPrerelease p with
          | none => simp [hp, hs]
          | some w => simp [hp, hs, hb, setMetadata_none_any b v _ hv]
    simp [nextVersion, hg, happly]
  · intro hdry
    unfold nextVersion
    split
    · rfl
    · split
      · rfl
      · simp [emit, hdry]
  · intro herr
    rcases hg : getVersion conf.versionPrefix git with ⟨cur, e⟩
    rw [hg] at herr
    cases e with
    | none => exact absurd rfl herr
    | some e => simp [nextVersion, hg]

theorem nextVersion_validation_witness :
    nextVersion (utf8 "patch") ⟨utf8 "v", false⟩ ⟨some (utf8 "rc 1"), none, false⟩
      ⟨utf8 "v1.2.3\n", none⟩ (fun _ _ => none) = ⟨3, [], []⟩ :=
  (nextVersion_validation (utf8 "patch") ⟨utf8 "v", false⟩ ⟨some (utf8 "rc 1"), none, false⟩
      ⟨utf8 "v1.2.3\n", none⟩ (fun _ _ => none)).1 (by decide)
    (Or.inl ⟨utf8 "rc 1", rfl, ⟨0, 1, 0, [], []⟩, by decide⟩)

/-! ## The order on versions and the selection of `getVersion` -/

theorem cmpList_symm {α : Type} (cmp : α → α → Ordering) [Batteries.OrientedCmp cmp] :
    ∀ a b : List α, (cmpList cmp a b).swap = cmpList cmp b a
  | [], [] => rfl
  | [], _ :: _ => rfl
  | _ :: _, [] => rfl
  | x :: xs, y :: ys => by
    simp only [cmpList, Ordering.swap_then, Batteries.OrientedCmp.symm, cmpList_symm cmp xs ys]

theorem cmpList_le_trans {α : Type} (cmp : α → α → Ordering) [Batteries.TransCmp cmp] :
    ∀ a b c : List α, cmpList cmp a b ≠ .gt → cmpList cmp b c ≠ .gt → cmpList cmp a c ≠ .gt
  | [], [], _ => fun _ h => h
  | [], _ :: _, [] => fun _ _ => by simp [cmpList]
  | [], _ :: _, _ :: _ => fun _ _ => by simp [cmpList]
  | _ :: _, [], _ => fun h _ => by simp [cmpList] at h
  | _ :: _, _ :: _, [] => fun _ h => by simp [cmpList] at h
  | x :: xs, y :: ys, z :: zs => by
    intro h1 h2
    simp only [cmpList, ne_eq, Ordering.then_eq_gt, not_or, not_and] at h1 h2 ⊢
    have hxz : cmp x z ≠ .gt := Batteries.TransCmp.le_trans h1.1 h2.1
    refine ⟨hxz, fun hz => ?_⟩
    have hxy : cmp x y = .eq := by
      cases hc : cmp x y with
      | gt => exact absurd hc h1.1
      | eq => rfl
      | lt =>
        have := Batteries.TransCmp.lt_le_trans hc h2.1
        rw [hz] at this
        cases this
    have hyz : cmp y z = .eq := by
      rw [← Batteries.TransCmp.cmp_congr_left hxy]
      exact hz
    exact cmpList_le_trans cmp xs ys zs (h1.2 hxy) (h2.2 hyz)

instance cmpList_trans {α : Type} (cmp : α → α → Ordering) [Batteries.TransCmp cmp] :
    Batteries.TransCmp (cmpList cmp) where
  symm := cmpList_symm cmp
  le_trans := cmpList_le_trans cmp _ _ _

instance natCompare_trans : Batteries.TransCmp (fun x y : Nat => compare x y) := inferInstance

theorem cmpIdent_symm (a b : GoString) : (cmpIdent a b).swap = cmpIdent b a := by
  unfold cmpIdent
  cases isNumeric a <;> cases isNumeric b <;> simp only [Ordering.swap]
  · exact @Batteries.OrientedCmp.symm _ (cmpList (fun x y : Nat => compare x y)) _ a b
  · exact @Batteries.OrientedCmp.symm _ (fun x y : Nat => compare x y) _ _ _

theorem cmpIdent_le_trans (a b c : GoString) (h1 : cmpIdent a b ≠ .gt)
    (h2 : cmpIdent b c ≠ .gt) : cmpIdent a c ≠ .gt := by
  unfold cmpIdent at h1 h2 ⊢
  cases ha : isNumeric a <;> cases hb : isNumeric b <;> cases hc : isNumeric c <;>
    simp only [ha, hb, hc, ne_eq, not_true_eq_false, reduceCtorEq, not_false_eq_true] at h1 h2 ⊢
  · exact @Batteries.TransCmp.le_trans _ (cmpList (fun x y : Nat => compare x y)) _ _ _ _ h1 h2
  · exact @Batteries.TransCmp.le_trans _ (fun x y : Nat => compare x y) _ _ _ _ h1 h2

instance cmpIdent_trans : Batteries.TransCmp cmpIdent where
  symm := cmpIdent_symm
  le_trans := cmpIdent_le_trans _ _ _

theorem comparePrerelease_symm (a b : List GoString) :
    (comparePrerelease a b).swap = comparePrerelease b a := by
  cases a <;> cases b <;> simp only [comparePrerelease, Ordering.swap]
  exact @Batteries.OrientedCmp.symm _ (cmpList cmpIdent) _ _ _

theorem comparePrerelease_le_trans (a b c : List GoString)
    (h1 : comparePrerelease a b ≠ .gt) (h2 : comparePrerelease b c ≠ .gt) :
    comparePrerelease a c ≠ .gt := by
  cases a <;> cases b <;> cases c <;>
    simp only [comparePrerelease, ne_eq, not_true_eq_false, reduceCtorEq,
      not_false_eq_true] at h1 h2 ⊢
  exact @Batteries.TransCmp.le_trans _ (cmpList cmpIdent) _ _ _ _ h1 h2

instance comparePrerelease_trans : Batteries.TransCmp comparePrerelease where
  symm := comparePrerelease_symm
  le_trans := comparePrerelease_le_trans _ _ _

instance compareBy_trans {α β : Type} (cmp : β → β → Ordering) [Batteries.TransCmp cmp]
    (f : α → β) : Batteries.TransCmp (fun a b => cmp (f a) (f b)) where
  symm a b := @Batteries.OrientedCmp.symm _ cmp _ (f a) (f b)
  le_trans := fun h1 h2 => @Batteries.TransCmp.le_trans _ cmp _ _ _ _ h1 h2

instance compare_trans : Batteries.TransCmp Version.Compare :=
  inferInstanceAs (Batteries.TransCmp
    (compareLex (fun a b : Version => (fun x y : Nat => compare x y) a.major b.major)
      (compareLex (fun a b : Version => (fun x y : Nat => compare x y) a.minor b.minor)
        (compareLex (fun a b : Version => (fun x y : Nat => compare x y) a.patch b.patch)
          (fun a b : Version => comparePrerelease a.pre b.pre)))))
theorem compare_self (v : Version) : v.Compare v = .eq :=
  @Batteries.OrientedCmp.cmp_refl _ Version.Compare v _

theorem greaterThan_iff (v o : Version) : v.GreaterThan o = true ↔ v.Compare o = .gt := by
  unfold Version.GreaterThan
  cases v.Compare o <;> decide

theorem greaterThan_false_iff (v o : Version) : v.GreaterThan o = false ↔ v.Compare o ≠ .gt := by
  unfold Version.GreaterThan
  cases v.Compare o <;> decide

theorem latestOf_eq_none (versionPrefix : GoString) :
    ∀ (tags : List GoString) (latest : Option Version),
      latestOf versionPrefix tags latest = none ↔
        latest = none ∧
          ∀ t ∈ tags, HasPrefix t versionPrefix = true → NewVersion t = none
  | [], latest => by simp [latestOf]
  | t :: rest, latest => by
    unfold latestOf
    by_cases hp : HasPrefix t versionPrefix = true
    · cases hv : NewVersion t with
      | none => simp [hp, hv, latestOf_eq_none versionPrefix rest latest]
      | some v =>
        cases latest with
        | none => simp [hp, hv, latestOf_eq_none versionPrefix rest (some v)]
        | some l =>
          by_cases hg : v.GreaterThan l = true
          · simp [hp, hv, hg, latestOf_eq_none versionPrefix rest (some v)]
          · simp [hp, hv, hg, latestOf_eq_none versionPrefix rest (some l)]
    · simp [hp, latestOf_eq_none versionPrefix rest latest]

theorem latestOf_filter (versionPrefix : GoString) (keep : GoString → Bool)
    (hkeep : ∀ t, NewVersion t ≠ none → keep t = true) :
    ∀ (tags : List GoString) (latest : Option Version),
      latestOf versionPrefix (tags.filter keep) latest = latestOf versionPrefix tags latest
  | [], _ => rfl
  | t :: rest, latest => by
    by_cases hk : keep t = true
    · rw [List.filter_cons_of_pos hk]
      unfold latestOf
      simp only [latestOf_filter versionPrefix keep hkeep rest]
    · have hv : NewVersion t = none := by
        by_contra h
        exact hk (hkeep t h)
      rw [List.filter_cons_of_neg hk, latestOf_filter versionPrefix keep hkeep rest latest]
      conv => rhs; unfold latestOf
      simp [hv]

theorem latestOf_first_max (versionPrefix : GoString) :
    ∀ (tags : List GoString) (latest : Option Version) (r : Version),
      latestOf versionPrefix tags latest = some r → FirstMax versionPrefix tags latest r
  | [], latest, r => by
    intro h
    left
    exact ⟨by simpa [latestOf] using h, by simp⟩
  | t :: rest, latest, r => by
    intro h
    unfold latestOf at h
    -- a tag that does not take part leaves the variable as it is
    have skip : (HasPrefix t versionPrefix = true → NewVersion t = none) →
        latestOf versionPrefix rest latest = some r →
        FirstMax versionPrefix (t :: rest) latest r := by
      intro hskip h
      rcases latestOf_first_max versionPrefix rest latest r h with ⟨h1, h2⟩ | ⟨b, t2, a, h1, h2, h3, h4, h5, h6⟩
      · left
        refine ⟨h1, ?_⟩
        intro u hu hup w hw
        rcases List.mem_cons.mp hu with rfl | hu
        · rw [hskip hup] at hw; cases hw
        · exact h2 u hu hup w hw
      · right
        refine ⟨t :: b, t2, a, by simp [h1], h2, h3, h4, ?_, h6⟩
        intro u hu hup w hw
        rcases List.mem_cons.mp hu with rfl | hu
        · rw [hskip hup] at hw; cases hw
        · exact h5 u hu hup w hw
    -- a tag read as `v` that becomes, or stays below, the variable
    have take : ∀ (v : Version) (cur : Version), HasPrefix t versionPrefix = true →
        NewVersion t = some v → (∀ l, latest = some l → l.Compare cur ≠ .gt) →
        (v.Compare cur ≠ .gt) → (latest = some cur ∨ (v = cur ∧ ∀ l, latest = some l → l.Compare cur = .lt)) →
        latestOf versionPrefix rest (some cur) = some r →
        FirstMax versionPrefix (t :: rest) latest r := by
      intro v cur hp hv hl hvc hcur h
      rcases latestOf_first_max versionPrefix rest (some cur) r h with ⟨h1, h2⟩ | ⟨b, t2, a, h1, h2, h3, h4, h5, h6⟩
      · cases h1
        rcases hcur with hcur | ⟨rfl, hlt⟩
        · left
          refine ⟨hcur, ?_⟩
          intro u hu hup w hw
          rcases List.mem_cons.mp hu with rfl | hu
          · rw [hv] at hw; cases hw; exact hvc
          · exact h2 u hu hup w hw
        · right
          exact ⟨[], t, rest, rfl, hp, hv, hlt, by simp, h2⟩
      · right
        have hcr := h4 cur rfl
        refine ⟨t :: b, t2, a, by simp [h1], h2, h3, ?_, ?_, h6⟩
        · intro l hl2
          exact @Batteries.TransCmp.le_lt_trans _ Version.Compare _ _ _ _ (hl l hl2) hcr
        · intro u hu hup w hw
          rcases List.mem_cons.mp hu with rfl | hu
          · rw [hv] at hw; cases hw
            exact @Batteries.TransCmp.le_lt_trans _ Version.Compare _ _ _ _ hvc hcr
          · exact h5 u hu hup w hw
    by_cases hp : HasPrefix t versionPrefix = true
    · cases hv : NewVersion t with
      | none =>
        simp only [hp, hv, if_true] at h
        exact skip (fun _ => hv) h
      | some v =>
        cases latest with
        | none =>
          simp only [hp, hv, if_true] at h
          exact take v v hp hv (by simp) (by simp [compare_self]) (Or.inr ⟨rfl, by simp⟩) h
        | some l =>
          by_cases hg : v.GreaterThan l = true
          · simp only [hp, hv, hg, if_true] at h
            have hlv : l.Compare v = .lt :=
              Batteries.OrientedCmp.cmp_eq_gt.mp ((greaterThan_iff v l).mp hg)
            refine take v v hp hv ?_ (by simp [compare_self]) (Or.inr ⟨rfl, ?_⟩) h
            · intro l2 hl2; cases hl2; simp [hlv]
            · intro l2 hl2; cases hl2; exact hlv
          · simp only [hp, hv, hg, if_true] at h
            have hvl : v.Compare l ≠ .gt := (greaterThan_false_iff v l).mp (by simpa using hg)
            refine take v l hp hv ?_ hvl (Or.inl rfl) h
            intro l2 hl2; cases hl2; simp [compare_self]
    · simp only [hp] at h
      exact skip (fun h2 => absurd h2 hp) h

theorem latestOf_max (versionPrefix : GoString) (tags : List GoString) (r : Version)
    (h : latestOf versionPrefix tags none = some r) :
    (∃ t ∈ tags, HasPrefix t versionPrefix = true ∧ NewVersion t = some r) ∧
      ∀ u ∈ tags, HasPrefix u versionPrefix = true →
        ∀ w, NewVersion u = some w → w.Compare r ≠ .gt := by
  rcases latestOf_first_max versionPrefix tags none r h with ⟨h1, _⟩ | ⟨b, t, a, h1, h2, h3, _, h5, h6⟩
  · cases h1
  · refine ⟨⟨t, by simp [h1], h2, h3⟩, ?_⟩
    intro u hu hup w hw
    rw [h1] at hu
    rcases List.mem_append.mp hu with hu | hu
    · simp [h5 u hu hup w hw]
    · rcases List.mem_cons.mp hu with rfl | hu
      · rw [h3] at hw; cases hw; simp [compare_self]
      · exact h6 u hu hup w hw

theorem getVersion_ok (versionPrefix out : GoString) :
    getVersion versionPrefix ⟨out, none⟩ =
      (latestOf versionPrefix (ScanLines out).tokens none, (ScanLines out).err) := rfl

/-- C1, at the failing input: under the prefix `version/` the single tag `version/1.2.3`,
whose remainder `1.2.3` is a valid version string, is handed to the parser with the prefix
still on it and is skipped; `getVersion` finds no version and `get` ends with exit code 2
instead of printing `version/1.2.3`. -/
theorem getVersion_keeps_prefix :
    HasPrefix (utf8 "version/1.2.3") (utf8 "version/") = true ∧
    parse (utf8 "1.2.3") = some ⟨1, 2, 3, [], []⟩ ∧
    utf8 "version/" ++ (Version.mk 1 2 3 [] []).String = utf8 "version/1.2.3" ∧
    NewVersion (utf8 "version/1.2.3") = none ∧
    getVersion (utf8 "version/") ⟨utf8 "version/1.2.3\n", none⟩ = (none, none) ∧
    cmdGet ⟨utf8 "version/", false⟩ ⟨utf8 "version/1.2.3\n", none⟩ = ⟨2, [], []⟩ := by
  decide

/-- C2. For every output `out` of `git tag` and every prefix: parse failures raise no error
(the error of `getVersion` is the scanner's); `getVersion` returns no version exactly when
no tag that begins with the prefix is read as a version by `semver.NewVersion`; a version
it returns is that of a tag that begins with the prefix, and compares greater than or
equal to the version of every such tag; and the selection is the same over the tags with
the unparsable ones removed. The tags v1.0.0, v1.2.0, v2.0.0-beta, v2.0.0 with prefix v
select 2.0.0. -/
theorem getVersion_selects_greatest (versionPrefix out : GoString) :
    (getVersion versionPrefix ⟨out, none⟩).2 = (ScanLines out).err ∧
    ((getVersion versionPrefix ⟨out, none⟩).1 = none ↔
      ∀ t ∈ (ScanLines out).tokens, HasPrefix t versionPrefix = true → NewVersion t = none) ∧
    (∀ r, (getVersion versionPrefix ⟨out, none⟩).1 = some r →
      (∃ t ∈ (ScanLines out).tokens, HasPrefix t versionPrefix = true ∧ NewVersion t = some r) ∧
      ∀ t ∈ (ScanLines out).tokens, HasPrefix t versionPrefix = true →
        ∀ w, NewVersion t = some w → r.Compare w = .gt ∨ r.Compare w = .eq) ∧
    (∀ out2,
      (ScanLines out2).tokens =
        (ScanLines out).tokens.filter (fun t => (NewVersion t).isSome) →
      (getVersion versionPrefix ⟨out2, none⟩).1 = (getVersion versionPrefix ⟨out, none⟩).1) ∧
    (getVersion (utf8 "v") ⟨utf8 "v1.0.0\nv1.2.0\nv2.0.0-beta\nv2.0.0\n", none⟩).1 =
      some ⟨2, 0, 0, [], []⟩ := by
  refine ⟨rfl, ?_, ?_, ?_, by decide⟩
  · rw [getVersion_ok]
    simp [latestOf_eq_none]
  · intro r hr
    rw [getVersion_ok] at hr
    obtain ⟨h1, h2⟩ := latestOf_max versionPrefix _ r hr
    refine ⟨h1, ?_⟩
    intro t ht hp w hw
    have hle := h2 t ht hp w hw
    have : r.Compare w ≠ .lt := Batteries.OrientedCmp.cmp_ne_gt.mp hle
    cases hc : r.Compare w with
    | lt => exact absurd hc this
    | eq => exact Or.inr rfl
    | gt => exact Or.inl rfl
  · intro out2 h2
    rw [getVersion_ok, getVersion_ok]
    simp only [h2]
    refine latestOf_filter versionPrefix _ ?_ _ none
    intro t ht
    cases hv : NewVersion t with
    | none => exact absurd hv ht
    | some v => rfl

theorem getVersion_selects_greatest_witness :
    (getVersion (utf8 "v") ⟨utf8 "v1.0.0\nfoo\nv1.2.0\n", none⟩).1 = some ⟨1, 2, 0, [], []⟩ ∧
    (getVersion (utf8 "v") ⟨utf8 "v1.0.0\nv1.2.0\n", none⟩).1 = some ⟨1, 2, 0, [], []⟩ :=
  ⟨by decide,
    ((getVersion_selects_greatest (utf8 "v") (utf8 "v1.0.0\nfoo\nv1.2.0\n")).2.2.2.1
      (utf8 "v1.0.0\nv1.2.0\n") (by decide)).trans (by decide)⟩

/-- C10. A version returned by `getVersion` is that of a tag that begins with the prefix
and parses, such that every such tag earlier in the list has a strictly smaller version
and no such tag later in the list has a greater one: among tags whose versions compare
equal and maximal, the first wins. Over any reordering of the tags the result is equal up
to comparison only: the tags 1.0.0+a and 1.0.0+b give 1.0.0+a in that order and 1.0.0+b in
the other, which compare equal and render differently. -/
theorem getVersion_first_of_equals (versionPrefix out : GoString) :
    (∀ r, (getVersion versionPrefix ⟨out, none⟩).1 = some r →
      ∃ before t after, (ScanLines out).tokens = before ++ t :: after ∧
        HasPrefix t versionPrefix = true ∧ NewVersion t = some r ∧
        (∀ u ∈ before, HasPrefix u versionPrefix = true →
          ∀ w, NewVersion u = some w → w.Compare r = .lt) ∧
        (∀ u ∈ after, HasPrefix u versionPrefix = true →
          ∀ w, NewVersion u = some w → w.Compare r ≠ .gt)) ∧
    (∀ out2, (ScanLines out2).tokens.Perm (ScanLines out).tokens →
      ((getVersion versionPrefix ⟨out2, none⟩).1 = none ↔
        (getVersion versionPrefix ⟨out, none⟩).1 = none) ∧
      ∀ r r2, (getVersion versionPrefix ⟨out, none⟩).1 = some r →
        (getVersion versionPrefix ⟨out2, none⟩).1 = some r2 → r.Compare r2 = .eq) ∧
    ((getVersion [] ⟨utf8 "1.0.0+a\n1.0.0+b\n", none⟩).1 = some ⟨1, 0, 0, [], [utf8 "a"]⟩ ∧
      (getVersion [] ⟨utf8 "1.0.0+b\n1.0.0+a\n", none⟩).1 = some ⟨1, 0, 0, [], [utf8 "b"]⟩ ∧
      (Version.mk 1 0 0 [] [utf8 "a"]).Compare ⟨1, 0, 0, [], [utf8 "b"]⟩ = .eq ∧
      (Version.mk 1 0 0 [] [utf8 "a"]).String ≠ (Version.mk 1 0 0 [] [utf8 "b"]).String) := by
  refine ⟨?_, ?_, by decide⟩
  · intro r hr
    rw [getVersion_ok] at hr
    rcases latestOf_first_max versionPrefix _ none r hr with ⟨h1, _⟩ | ⟨b, t, a, h1, h2, h3, _, h5, h6⟩
    · cases h1
    · exact ⟨b, t, a, h1, h2, h3, h5, h6⟩
  · intro out2 hperm
    simp only [getVersion_ok]
    refine ⟨?_, ?_⟩
    · simp only [latestOf_eq_none, true_and]
      constructor
      · intro h t ht
        exact h t (hperm.symm.subset ht)
      · intro h t ht
        exact h t (hperm.subset ht)
    · intro r r2 hr hr2
      obtain ⟨⟨t, ht, hp, hv⟩, hmax⟩ := latestOf_max versionPrefix _ r hr
      obtain ⟨⟨t2, ht2, hp2, hv2⟩, hmax2⟩ := latestOf_max versionPrefix _ r2 hr2
      have h1 : r2.Compare r ≠ .gt := hmax t2 (hperm.subset ht2) hp2 r2 hv2
      have h2 : r.Compare r2 ≠ .gt := hmax2 t (hperm.symm.subset ht) hp r hv
      have h3 : r.Compare r2 ≠ .lt := Batteries.OrientedCmp.cmp_ne_gt.mp h1
      cases hc : r.Compare r2 with
      | lt => exact absurd hc h3
      | eq => rfl
      | gt => exact absurd hc h2

theorem getVersion_first_of_equals_witness :
    (getVersion [] ⟨utf8 "1.0.0+b\n1.0.0+a\n", none⟩).1 = some ⟨1, 0, 0, [], [utf8 "b"]⟩ ∧
    (Version.mk 1 0 0 [] [utf8 "a"]).Compare ⟨1, 0, 0, [], [utf8 "b"]⟩ = .eq :=
  ⟨by decide,
    ((getVersion_first_of_equals [] (utf8 "1.0.0+a\n1.0.0+b\n")).2.1
      (utf8 "1.0.0+b\n1.0.0+a\n") (by decide)).2 _ _ (by decide) (by decide)⟩

end GitSemver
